import Mathlib

/-!
Verification of the soroban-privacy-pools repository: a shallow embedding of
the Lean Incremental Merkle Tree (src/lean-imt/src/lib.rs) and the privacy
pool contract (src/contracts/privacy-pools/src/lib.rs), together with
theorems settling the specification claims.

Scalars of the BLS12-381 scalar field `Fr` are embedded as `ZMod blsR`.
The Poseidon hash (the external `Poseidon255` crate, not part of this
repository) is modelled as an explicit function parameter `h`, following the
spec section 4.C, which fixes only its interface `hash2 : Fr -> Fr -> Fr`.
The Groth16 verifier (the external `zk` crate) is likewise modelled as a
boolean parameter giving the outcome of `Groth16Verifier::verify_proof`.
-/

set_option maxRecDepth 4000

/-- Order of the BLS12-381 scalar field (the prime r). -/
def blsR : Nat :=
  0x73eda753299d7d483339d80809a1d80553bda402fffe5bfeffffffff00000001

/-- The scalar field, `ark_bls12_381::Fr` in the source. -/
abbrev Fr : Type := ZMod blsR

instance : NeZero blsR := ⟨by decide⟩

/-! ## Byte codec (src/lean-imt/src/lib.rs, bls_scalar_to_bytes / bytes_to_bls_scalar)

A 32-byte array `BytesN<32>` is embedded as a `List Nat` of length 32 whose
entries are below 256. -/

/-- Big-endian value of a byte list (`u64::from_be_bytes` / `BigInteger::to_bytes_be`
read bytes most significant first). -/
def beFold (bs : List Nat) : Nat :=
  bs.foldl (fun acc b => acc * 256 + b) 0

/-- Big-endian byte list of width `n` for a natural number. -/
def beBytes : Nat → Nat → List Nat
  | 0, _ => []
  | n + 1, v => beBytes n (v / 256) ++ [v % 256]

/-- The `BigInt` value assembled by `bytes_to_bls_scalar`:
`u64_array[3-i]` is the big-endian u64 of `bytes[8i..8i+8]`, and the bigint
value is `Σ u64_array[k] * 2^(64k)`. -/
def limbValue (bs : List Nat) : Nat :=
  beFold (bs.take 8) * 2 ^ 192 +
    beFold ((bs.drop 8).take 8) * 2 ^ 128 +
    beFold ((bs.drop 16).take 8) * 2 ^ 64 +
    beFold ((bs.drop 24).take 8)

/-- `bytes_to_bls_scalar`: assemble the 4 u64 limbs big-endian and call
`BlsScalar::from_bigint(bigint).unwrap_or(0)`. `from_bigint` returns `None`
exactly when the value is not below the field order, so out-of-range values
become the scalar 0. -/
def bytes_to_bls_scalar (bs : List Nat) : Fr :=
  if limbValue bs < blsR then (limbValue bs : Fr) else 0

/-- One u64 limb of a scalar value: `v / 2^(64*i) % 2^64`. -/
def limb (v i : Nat) : Nat :=
  v / 2 ^ (64 * i) % 2 ^ 64

/-- `bls_scalar_to_bytes`: `into_bigint().to_bytes_be()` emits the four u64
limbs most significant first, each as 8 big-endian bytes. -/
def bls_scalar_to_bytes (s : Fr) : List Nat :=
  beBytes 8 (limb s.val 3) ++ beBytes 8 (limb s.val 2) ++
    beBytes 8 (limb s.val 1) ++ beBytes 8 (limb s.val 0)

/-! ### Codec lemmas -/

theorem beFold_append (xs ys : List Nat) :
    beFold (xs ++ ys) = beFold xs * 256 ^ ys.length + beFold ys := by
  have key : ∀ (ys : List Nat) (a : Nat),
      ys.foldl (fun acc b => acc * 256 + b) a =
        a * 256 ^ ys.length + ys.foldl (fun acc b => acc * 256 + b) 0 := by
    intro ys
    induction ys with
    | nil => intro a; simp
    | cons y ys ih =>
        intro a
        simp only [List.foldl_cons, List.length_cons]
        rw [ih (a * 256 + y), ih (0 * 256 + y)]
        ring
  unfold beFold
  rw [List.foldl_append]
  exact key ys _

theorem beBytes_length (n v : Nat) : (beBytes n v).length = n := by
  induction n generalizing v with
  | zero => simp [beBytes]
  | succ n ih => simp [beBytes, ih]

theorem beFold_beBytes (n v : Nat) (hv : v < 256 ^ n) :
    beFold (beBytes n v) = v := by
  induction n generalizing v with
  | zero =>
      interval_cases v
      simp [beBytes, beFold]
  | succ n ih =>
      have hdiv : v / 256 < 256 ^ n := by
        rw [Nat.div_lt_iff_lt_mul (by norm_num)]
        calc v < 256 ^ (n + 1) := hv
          _ = 256 ^ n * 256 := by ring
      rw [beBytes, beFold_append, ih _ hdiv]
      simp [beFold]
      omega

theorem beBytes_beFold (bs : List Nat) (hb : ∀ b ∈ bs, b < 256) :
    beBytes bs.length (beFold bs) = bs := by
  induction bs using List.reverseRecOn with
  | nil => simp [beBytes, beFold]
  | append_singleton ys b ih =>
      have hb' : b < 256 := hb b (by simp)
      rw [beFold_append]
      simp only [List.length_append, List.length_singleton, beBytes]
      have h1 : (beFold ys * 256 ^ 1 + beFold [b]) / 256 = beFold ys := by
        simp only [beFold, List.foldl_cons, List.foldl_nil, pow_one]
        omega
      have h2 : (beFold ys * 256 ^ 1 + beFold [b]) % 256 = b := by
        simp only [beFold, List.foldl_cons, List.foldl_nil, pow_one]
        omega
      rw [h1, h2, ih (fun x hx => hb x (by simp [hx]))]

theorem beFold_lt (bs : List Nat) (hb : ∀ b ∈ bs, b < 256) :
    beFold bs < 256 ^ bs.length := by
  induction bs using List.reverseRecOn with
  | nil => simp [beFold]
  | append_singleton ys b ih =>
      have hb' : b < 256 := hb b (by simp)
      have ihy := ih (fun x hx => hb x (by simp [hx]))
      rw [beFold_append]
      simp only [beFold] at ihy
      simp only [List.length_append, List.length_singleton, beFold,
        List.foldl_cons, List.foldl_nil, pow_one, pow_succ]
      omega

/-- The limb assembly of `bytes_to_bls_scalar` computes exactly the big-endian
value of the 32 bytes. -/
theorem limbValue_eq_beFold (bs : List Nat) (hlen : bs.length = 32) :
    limbValue bs = beFold bs := by
  have split : ∀ (l : List Nat) (k : Nat), 8 ≤ l.length →
      beFold l = beFold (l.take 8) * 256 ^ (l.length - 8) + beFold (l.drop 8) := by
    intro l k hl
    conv_lhs => rw [← List.take_append_drop 8 l]
    rw [beFold_append]
    congr 2
    simp
  have h0 : beFold bs = beFold (bs.take 8) * 256 ^ 24 + beFold (bs.drop 8) := by
    have := split bs 0 (by omega)
    rwa [hlen] at this
  have l8 : (bs.drop 8).length = 24 := by simp [hlen]
  have h8 : beFold (bs.drop 8) =
      beFold ((bs.drop 8).take 8) * 256 ^ 16 + beFold (bs.drop 16) := by
    have := split (bs.drop 8) 0 (by omega)
    rw [l8] at this
    simpa [List.drop_drop] using this
  have l16 : (bs.drop 16).length = 16 := by simp [hlen]
  have h16 : beFold (bs.drop 16) =
      beFold ((bs.drop 16).take 8) * 256 ^ 8 + beFold (bs.drop 24) := by
    have := split (bs.drop 16) 0 (by omega)
    rw [l16] at this
    simpa [List.drop_drop] using this
  have h24 : (bs.drop 24).take 8 = bs.drop 24 := by
    apply List.take_of_length_le
    simp [hlen]
  have e1 : (256 : Nat) ^ 24 = 2 ^ 192 := by norm_num
  have e2 : (256 : Nat) ^ 16 = 2 ^ 128 := by norm_num
  have e3 : (256 : Nat) ^ 8 = 2 ^ 64 := by norm_num
  unfold limbValue
  rw [h24, h0, h8, h16, e1, e2, e3]
  ring

/-! ## LeanIMT (src/lean-imt/src/lib.rs)

The tree struct holds `leaves`, `depth` and `root`. Internal hashing is done
in scalar space; the byte codec is analysed separately (claims C9 and C10),
and canonical encodings round-trip, so the tree is embedded over `Fr`
directly. The Poseidon pair hash `hash_pair` (external `Poseidon255` crate)
is the parameter `h`. -/

/-- The `LeanIMT` struct: `leaves`, `depth`, `root` (env omitted). -/
structure LeanIMT where
  leaves : List Fr
  depth : Nat
  root : Fr
deriving DecidableEq

/-- The while loop of `compute_tree_depth`, with an explicit fuel argument
for structural recursion (the loop halves its argument, so `c` units of fuel
always suffice; see `depthLoop_eq`). -/
def depthLoopF : Nat → Nat → Nat
  | 0, _ => 0
  | fuel + 1, c => if c ≤ 1 then 0 else depthLoopF fuel ((c + 1) / 2) + 1

/-- The while loop of `compute_tree_depth`: halve (rounding up) until at
most one node remains, counting steps. -/
def depthLoop (c : Nat) : Nat :=
  depthLoopF c c

theorem depthLoopF_irrel : ∀ (f1 f2 c : Nat), c ≤ f1 → c ≤ f2 →
    depthLoopF f1 c = depthLoopF f2 c := by
  intro f1
  induction f1 with
  | zero =>
      intro f2 c h1 _
      cases f2 with
      | zero => rfl
      | succ f2 =>
          have : c = 0 := by omega
          subst this
          rfl
  | succ f1 ih =>
      intro f2 c h1 h2
      by_cases hc : c ≤ 1
      · cases f2 with
        | zero =>
            have : c = 0 := by omega
            subst this
            rfl
        | succ f2 => simp [depthLoopF, hc]
      · cases f2 with
        | zero => omega
        | succ f2 =>
            simp only [depthLoopF, if_neg hc]
            rw [ih f2 ((c + 1) / 2) (by omega) (by omega)]

/-- The fueled loop satisfies the defining equation of the Rust while loop. -/
theorem depthLoop_eq (c : Nat) :
    depthLoop c = if c ≤ 1 then 0 else depthLoop ((c + 1) / 2) + 1 := by
  by_cases hc : c ≤ 1
  · interval_cases c <;> simp [depthLoop, depthLoopF]
  · rw [if_neg hc]
    unfold depthLoop
    cases c with
    | zero => omega
    | succ c =>
        simp only [depthLoopF, if_neg hc]
        rw [depthLoopF_irrel c ((c + 1 + 1) / 2) ((c + 1 + 1) / 2) (by omega) le_rfl]

/-- `LeanIMT::compute_tree_depth`. -/
def compute_tree_depth (leaf_count : Nat) : Nat :=
  if leaf_count = 0 then 0 else depthLoop leaf_count

/-- One level of `recompute_tree`: hash adjacent pairs; an unpaired final
node is pushed to the next level unchanged. -/
def hashLevel (h : Fr → Fr → Fr) : List Fr → List Fr
  | [] => []
  | [x] => [x]
  | x :: y :: rest => h x y :: hashLevel h rest

/-- The root computed by `LeanIMT::recompute_tree`: empty tree has root 0;
otherwise iterate `hashLevel` `depth` times and take element 0. -/
def recomputeRoot (h : Fr → Fr → Fr) (leaves : List Fr) : Fr :=
  if leaves = [] then 0
  else ((hashLevel h)^[compute_tree_depth leaves.length] leaves).getD 0 0

/-- The tree state after `recompute_tree` on a given leaf sequence; both
`LeanIMT::insert` and the contract `store_commitment` produce states of this
form. -/
def treeOfLeaves (h : Fr → Fr → Fr) (leaves : List Fr) : LeanIMT :=
  { leaves := leaves
    depth := compute_tree_depth leaves.length
    root := recomputeRoot h leaves }

/-- `LeanIMT::new`: empty leaves, depth 0, root = 32 zero bytes = scalar 0. -/
def LeanIMT.new : LeanIMT :=
  { leaves := [], depth := 0, root := 0 }

/-- `LeanIMT::insert`: append the leaf, then recompute the whole tree. It
has no capacity check and never fails. -/
def LeanIMT.insert (h : Fr → Fr → Fr) (t : LeanIMT) (leaf : Fr) : LeanIMT :=
  treeOfLeaves h (t.leaves ++ [leaf])

/-- `LeanIMT::compute_node_at_level_scalar`: level 0 reads the leaf (zero if
the index is beyond the stored leaves), levels above `depth` are zero, and
otherwise the node is the hash of its two children on the level below. -/
def compute_node_at_level_scalar
    (h : Fr → Fr → Fr) (leaves : List Fr) (depth : Nat) : Nat → Nat → Fr
  | idx, 0 => if idx < leaves.length then leaves.getD idx 0 else 0
  | idx, level + 1 =>
      if level + 1 > depth then 0
      else h (compute_node_at_level_scalar h leaves depth (2 * idx) level)
             (compute_node_at_level_scalar h leaves depth (2 * idx + 1) level)

/-- The sibling index of `generate_proof`: the partner on the other side of
the pair containing `cur`. -/
def sibIndex (cur : Nat) : Nat :=
  if cur % 2 = 0 then cur + 1 else cur - 1

/-- The sibling value read by `generate_proof` at one level: at the leaf
level the stored leaf (or zero beyond the stored leaves), above it
`compute_node_at_level`. -/
def siblingAt (h : Fr → Fr → Fr) (leaves : List Fr) (depth cur level : Nat) : Fr :=
  if level = 0 then
    if sibIndex cur < leaves.length then leaves.getD (sibIndex cur) 0 else 0
  else compute_node_at_level_scalar h leaves depth (sibIndex cur) level

/-- The sibling loop of `LeanIMT::generate_proof` (general branch):
starting at `cur` on `level`, with `rem` levels remaining up to `depth`,
collect the sibling at each level, halving the index as the loop ascends. -/
def genSiblings (h : Fr → Fr → Fr) (leaves : List Fr) (depth : Nat) :
    Nat → Nat → Nat → List Fr
  | _, _, 0 => []
  | cur, level, rem + 1 =>
      siblingAt h leaves depth cur level ::
        genSiblings h leaves depth (cur / 2) (level + 1) rem

/-- `LeanIMT::generate_proof`: `None` when the index is out of range; a
dedicated branch for the two-leaf depth-1 tree; otherwise the sibling loop.
In both branches the root is appended to the sibling list when depth > 0.
The second component of the result is the tree depth. -/
def generate_proof (h : Fr → Fr → Fr) (t : LeanIMT) (leaf_index : Nat) :
    Option (List Fr × Nat) :=
  if leaf_index ≥ t.leaves.length then none
  else
    let siblings :=
      if t.depth = 1 ∧ t.leaves.length = 2 then
        (if leaf_index = 0 then [t.leaves.getD 1 0] else [t.leaves.getD 0 0]) ++
          (if 0 < t.depth then [t.root] else [])
      else
        genSiblings h t.leaves t.depth leaf_index 0 t.depth ++
          (if 0 < t.depth then [t.root] else [])
    some (siblings, t.depth)

/-- The sibling list of `generate_proof`, empty when the proof is refused. -/
def proofSiblings (h : Fr → Fr → Fr) (t : LeanIMT) (leaf_index : Nat) : List Fr :=
  ((generate_proof h t leaf_index).map Prod.fst).getD []

/-- Recomputing up an authentication path: at each level hash the
accumulator with the sibling, on the side given by the low bit of the
current index, then halve the index. -/
def foldPath (h : Fr → Fr → Fr) : Fr → Nat → List Fr → Fr
  | acc, _, [] => acc
  | acc, idx, s :: rest =>
      foldPath h (if idx % 2 = 0 then h acc s else h s acc) (idx / 2) rest

/-- The all-zero subtree values of the spec: `Z 0 = 0`, `Z (k+1) = h (Z k) (Z k)`. -/
def zeroSubtree (h : Fr → Fr → Fr) : Nat → Fr
  | 0 => 0
  | k + 1 => h (zeroSubtree h k) (zeroSubtree h k)

/-! ## Privacy pool contract (src/contracts/privacy-pools/src/lib.rs)

The contract state kept in instance storage: the tree (leaves, depth, root),
the used-nullifier vector and the balance. Nullifiers are stored as the
canonical 32-byte encoding of an `Fr`; since that encoding is injective on
canonical values the vector is embedded as `List Fr`. The balance is an
`i128`, embedded as `Int`. -/

/-- `FIXED_AMOUNT`: 1 XLM in stroops. -/
def FIXED_AMOUNT : Int := 1000000000

/-- Decoded public signals, `[nullifierHash, withdrawnValue, stateRoot]` as
extracted by `withdraw`; any further signals are consumed only by the
verifier, which is a parameter here. -/
structure PubSignals where
  nullifierHash : Fr
  withdrawnValue : Fr
  stateRoot : Fr
deriving DecidableEq

/-- The result vector of `withdraw` holds a single status string; the four
strings the source can return are modelled as a four-constructor type. Note
that both the state-root check and the Groth16 check return the SAME string
constant `ERROR_COIN_OWNERSHIP_PROOF`, hence they share a constructor. -/
inductive WithdrawResult where
  /-- The string constant `ERROR_INSUFFICIENT_BALANCE`. -/
  | insufficientBalance
  /-- The string constant `ERROR_COIN_OWNERSHIP_PROOF`, returned both when
  the state root does not match and when proof verification fails. -/
  | coinOwnershipProof
  /-- The string constant `ERROR_NULLIFIER_USED`. -/
  | nullifierUsed
  /-- The string constant `ERROR_WITHDRAW_SUCCESS`. -/
  | success
deriving DecidableEq

/-- The contract storage touched by deposit/withdraw. -/
structure PoolState where
  tree : LeanIMT
  nullifiers : List Fr
  balance : Int
deriving DecidableEq

/-- The pool state written by `__constructor`: an empty tree and the
`unwrap_or` defaults (no nullifiers, zero balance). -/
def initialPool : PoolState :=
  { tree := LeanIMT.new, nullifiers := [], balance := 0 }

/-- `PrivacyPoolsContract::deposit` (with `store_commitment` inlined): load
the tree, insert the commitment, store it back, credit `FIXED_AMOUNT`, and
return the new leaf index `get_leaf_count() - 1`. -/
def deposit (h : Fr → Fr → Fr) (st : PoolState) (commitment : Fr) :
    Nat × PoolState :=
  let t := st.tree.insert h commitment
  (t.leaves.length - 1,
    { st with tree := t, balance := st.balance + FIXED_AMOUNT })

/-- `PrivacyPoolsContract::withdraw`. `verify` is the outcome of
`Groth16Verifier::verify_proof` on the supplied verification key, proof and
public signals (`false` covers both `Err(_)` and `Ok(false)`). The checks
run in source order: balance, state root, nullifier, proof; each failure
returns its string without touching storage, and only the success path
records the nullifier and debits the balance. -/
def withdraw (verify : Bool) (ps : PubSignals) (st : PoolState) :
    WithdrawResult × PoolState :=
  if st.balance < FIXED_AMOUNT then (.insufficientBalance, st)
  else if ps.stateRoot ≠ st.tree.root then (.coinOwnershipProof, st)
  else if ps.nullifierHash ∈ st.nullifiers then (.nullifierUsed, st)
  else if ¬ verify then (.coinOwnershipProof, st)
  else (.success,
    { st with nullifiers := st.nullifiers ++ [ps.nullifierHash],
              balance := st.balance - FIXED_AMOUNT })

/-- A contract call that can mutate pool state. -/
inductive PoolOp where
  | deposit (commitment : Fr)
  | withdraw (verify : Bool) (ps : PubSignals)

/-- Execute one call, keeping only the post-state. -/
def execOp (h : Fr → Fr → Fr) (st : PoolState) : PoolOp → PoolState
  | .deposit c => (deposit h st c).2
  | .withdraw v ps => (withdraw v ps st).2

/-- Execute a sequence of calls. -/
def execOps (h : Fr → Fr → Fr) (ops : List PoolOp) (st : PoolState) : PoolState :=
  ops.foldl (execOp h) st

/-- A concrete stand-in hash used to instantiate the hash parameter in
counterexamples and witnesses (the statements being refuted are structural,
so any instantiation of the Poseidon parameter suffices to refute them). -/
def testHash (a b : Fr) : Fr := a + 2 * b + 1

/-! ## Codec claims (C9, C10) -/

theorem beBytes_mod (n v : Nat) : beBytes n (v % 256 ^ n) = beBytes n v := by
  induction n generalizing v with
  | zero => rfl
  | succ n ih =>
      show beBytes n (v % 256 ^ (n + 1) / 256) ++ [v % 256 ^ (n + 1) % 256] =
        beBytes n (v / 256) ++ [v % 256]
      have h1 : v % 256 ^ (n + 1) / 256 = v / 256 % 256 ^ n := by
        rw [pow_succ, mul_comm]
        exact Nat.mod_mul_right_div_self v 256 (256 ^ n)
      have h2 : v % 256 ^ (n + 1) % 256 = v % 256 := by
        apply Nat.mod_mod_of_dvd
        exact dvd_pow_self 256 (Nat.succ_ne_zero n)
      rw [h1, h2, ih]

theorem beBytes_add (m n v : Nat) :
    beBytes (m + n) v = beBytes m (v / 256 ^ n) ++ beBytes n v := by
  induction n generalizing v with
  | zero => simp [beBytes]
  | succ n ih =>
      show beBytes (m + n) (v / 256) ++ [v % 256] = _
      rw [ih (v / 256)]
      show beBytes m (v / 256 / 256 ^ n) ++ beBytes n (v / 256) ++ [v % 256] =
        beBytes m (v / 256 ^ (n + 1)) ++ (beBytes n (v / 256) ++ [v % 256])
      rw [Nat.div_div_eq_div_mul, List.append_assoc, ← pow_succ']

/-- The byte encoder equals the plain 32-byte big-endian encoding of the
scalar value. -/
theorem bls_scalar_to_bytes_eq (s : Fr) :
    bls_scalar_to_bytes s = beBytes 32 s.val := by
  unfold bls_scalar_to_bytes limb
  have e64 : (2 : Nat) ^ 64 = 256 ^ 8 := by norm_num
  have f3 : beBytes 8 (s.val / 2 ^ (64 * 3) % 2 ^ 64) = beBytes 8 (s.val / 256 ^ 24) := by
    rw [e64, beBytes_mod]
    norm_num
  have f2 : beBytes 8 (s.val / 2 ^ (64 * 2) % 2 ^ 64) = beBytes 8 (s.val / 256 ^ 16) := by
    rw [e64, beBytes_mod]
    norm_num
  have f1 : beBytes 8 (s.val / 2 ^ (64 * 1) % 2 ^ 64) = beBytes 8 (s.val / 256 ^ 8) := by
    rw [e64, beBytes_mod]
  have f0 : beBytes 8 (s.val / 2 ^ (64 * 0) % 2 ^ 64) = beBytes 8 s.val := by
    rw [e64, beBytes_mod]
    norm_num
  rw [f3, f2, f1, f0]
  have s32 : beBytes 32 s.val = beBytes 24 (s.val / 256 ^ 8) ++ beBytes 8 s.val :=
    beBytes_add 24 8 s.val
  have s24 : beBytes 24 (s.val / 256 ^ 8) =
      beBytes 16 (s.val / 256 ^ 16) ++ beBytes 8 (s.val / 256 ^ 8) := by
    rw [beBytes_add 16 8, Nat.div_div_eq_div_mul]
    norm_num
  have s16 : beBytes 16 (s.val / 256 ^ 16) =
      beBytes 8 (s.val / 256 ^ 24) ++ beBytes 8 (s.val / 256 ^ 16) := by
    rw [beBytes_add 8 8, Nat.div_div_eq_div_mul]
    norm_num
  rw [s32, s24, s16]

theorem blsR_lt : blsR < 256 ^ 32 := by decide

theorem bls_scalar_to_bytes_length (s : Fr) :
    (bls_scalar_to_bytes s).length = 32 := by
  rw [bls_scalar_to_bytes_eq, beBytes_length]

/-- C9. The claim: decoding reduces the 32-byte big-endian value modulo the
field prime `r`. In the source, `from_bigint(...).unwrap_or(0)` maps every
value at or above `r` to 0 instead of reducing it. Refuted at the 32-byte
big-endian encoding of `r + 1`, which decodes to 0 while `(r + 1) mod r = 1`. -/
theorem C9_counterexample :
    bytes_to_bls_scalar (beBytes 32 (blsR + 1)) ≠
      ((beFold (beBytes 32 (blsR + 1)) : Nat) : Fr) := by
  decide

/-- C9 amended: a canonical 32-byte big-endian encoding (value below `r`)
decodes to exactly that value, and every non-canonical one (value at or
above `r`) decodes to the scalar 0, not to its reduction mod `r`. -/
theorem C9_amended (bs : List Nat) (hlen : bs.length = 32) :
    (beFold bs < blsR →
      bytes_to_bls_scalar bs = ((beFold bs : Nat) : Fr) ∧
        (bytes_to_bls_scalar bs).val = beFold bs) ∧
    (blsR ≤ beFold bs → bytes_to_bls_scalar bs = 0) := by
  unfold bytes_to_bls_scalar
  rw [limbValue_eq_beFold bs hlen]
  constructor
  · intro hlt
    rw [if_pos hlt]
    exact ⟨rfl, ZMod.val_natCast_of_lt hlt⟩
  · intro hge
    rw [if_neg (by omega)]

theorem C9_amended_witness :
    ([1] ++ List.replicate 31 0).length = 32 ∧
      bytes_to_bls_scalar ([1] ++ List.replicate 31 0) =
        ((beFold ([1] ++ List.replicate 31 0) : Nat) : Fr) := by
  refine ⟨by decide, ?_⟩
  exact ((C9_amended ([1] ++ List.replicate 31 0) (by decide)).1 (by decide)).1

/-- C10. Round trip of the scalar/byte codec: encoding then decoding is the
identity on scalars, and decoding then encoding is the identity on 32-byte
strings whose big-endian value is canonical (below `r`). -/
theorem C10_roundtrip :
    (∀ s : Fr, bytes_to_bls_scalar (bls_scalar_to_bytes s) = s) ∧
    (∀ bs : List Nat, bs.length = 32 → (∀ b ∈ bs, b < 256) →
      beFold bs < blsR → bls_scalar_to_bytes (bytes_to_bls_scalar bs) = bs) := by
  constructor
  · intro s
    have hval : s.val < blsR := ZMod.val_lt s
    have hlen : (bls_scalar_to_bytes s).length = 32 := bls_scalar_to_bytes_length s
    unfold bytes_to_bls_scalar
    rw [limbValue_eq_beFold _ hlen, bls_scalar_to_bytes_eq,
      beFold_beBytes 32 s.val (lt_trans hval blsR_lt)]
    rw [if_pos hval]
    exact ZMod.natCast_rightInverse s
  · intro bs hlen hb hlt
    unfold bytes_to_bls_scalar
    rw [limbValue_eq_beFold _ hlen, if_pos hlt, bls_scalar_to_bytes_eq,
      ZMod.val_natCast_of_lt hlt, ← hlen, beBytes_beFold bs hb]

theorem C10_roundtrip_witness :
    bytes_to_bls_scalar (bls_scalar_to_bytes (5 : Fr)) = 5 ∧
      bls_scalar_to_bytes (bytes_to_bls_scalar ([2] ++ List.replicate 31 7)) =
        [2] ++ List.replicate 31 7 :=
  ⟨C10_roundtrip.1 5,
    C10_roundtrip.2 ([2] ++ List.replicate 31 7) (by decide)
      (by decide) (by decide)⟩

/-! ## Tree lemmas -/

theorem depthLoop_two_pow (k : Nat) : depthLoop (2 ^ k) = k := by
  induction k with
  | zero => rw [depthLoop_eq]; norm_num
  | succ k ih =>
      rw [depthLoop_eq]
      have hp : 0 < 2 ^ k := Nat.pos_pow_of_pos k (by norm_num)
      have hbig : ¬ 2 ^ (k + 1) ≤ 1 := by
        rw [pow_succ]
        omega
      rw [if_neg hbig]
      have harg : (2 ^ (k + 1) + 1) / 2 = 2 ^ k := by
        rw [pow_succ]
        omega
      rw [harg, ih]

theorem compute_tree_depth_two_pow (k : Nat) : compute_tree_depth (2 ^ k) = k := by
  unfold compute_tree_depth
  rw [if_neg (Nat.pos_pow_of_pos k (by norm_num)).ne']
  exact depthLoop_two_pow k

theorem hashLevel_length (h : Fr → Fr → Fr) :
    ∀ l : List Fr, 2 ∣ l.length → (hashLevel h l).length = l.length / 2 := by
  intro l
  induction l using hashLevel.induct (h := h) with
  | case1 => simp [hashLevel]
  | case2 x => intro hdvd; simp at hdvd
  | case3 x y rest ih =>
      intro hdvd
      have : 2 ∣ rest.length := by
        simp only [List.length_cons] at hdvd
        omega
      simp only [hashLevel, List.length_cons, ih this]
      omega

theorem hashLevel_getD (h : Fr → Fr → Fr) :
    ∀ (l : List Fr) (m : Nat), 2 * m + 1 < l.length →
      (hashLevel h l).getD m 0 = h (l.getD (2 * m) 0) (l.getD (2 * m + 1) 0) := by
  intro l
  induction l using hashLevel.induct (h := h) with
  | case1 => intro m hm; simp at hm
  | case2 x => intro m hm; simp at hm
  | case3 x y rest ih =>
      intro m hm
      match m with
      | 0 => simp [hashLevel]
      | m + 1 =>
          have hm' : 2 * m + 1 < rest.length := by
            simp only [List.length_cons] at hm
            omega
          have e1 : 2 * (m + 1) = 2 * m + 1 + 1 := by omega
          have e2 : 2 * (m + 1) + 1 = 2 * m + 1 + 1 + 1 := by omega
          simp only [hashLevel, e1, e2, List.getD_cons_succ]
          exact ih m hm'

/-- Unfolding lemma for the recursive branch of `compute_node_at_level_scalar`. -/
theorem compute_node_succ (h : Fr → Fr → Fr) (leaves : List Fr)
    (depth idx level : Nat) (hle : level + 1 ≤ depth) :
    compute_node_at_level_scalar h leaves depth idx (level + 1) =
      h (compute_node_at_level_scalar h leaves depth (2 * idx) level)
        (compute_node_at_level_scalar h leaves depth (2 * idx + 1) level) := by
  rw [compute_node_at_level_scalar]
  rw [if_neg (by omega)]

/-- The sibling value is always the zero-padded node value at the sibling
index. -/
theorem siblingAt_eq (h : Fr → Fr → Fr) (leaves : List Fr)
    (depth cur level : Nat) :
    siblingAt h leaves depth cur level =
      compute_node_at_level_scalar h leaves depth (sibIndex cur) level := by
  cases level with
  | zero => simp [siblingAt, compute_node_at_level_scalar]
  | succ l => simp [siblingAt]

/-- For a perfect tree (leaf count a power of two), level `j` of the
`recompute_tree` iteration agrees pointwise with
`compute_node_at_level_scalar` on the original leaves. -/
theorem iterate_hashLevel (h : Fr → Fr → Fr) (k : Nat) (leaves : List Fr)
    (hlen : leaves.length = 2 ^ k) :
    ∀ j, j ≤ k → ((hashLevel h)^[j] leaves).length = 2 ^ (k - j) ∧
      ∀ m, m < 2 ^ (k - j) →
        ((hashLevel h)^[j] leaves).getD m 0 =
          compute_node_at_level_scalar h leaves k m j := by
  intro j
  induction j with
  | zero =>
      intro _
      refine ⟨by simpa using hlen, ?_⟩
      intro m hm
      rw [Nat.sub_zero] at hm
      simp only [Function.iterate_zero, id_eq, compute_node_at_level_scalar]
      rw [if_pos (by omega)]
  | succ j ih =>
      intro hjk
      obtain ⟨ihlen, ihget⟩ := ih (by omega)
      have hd : 1 ≤ k - j := by omega
      have hsplit : 2 ^ (k - j) = 2 * 2 ^ (k - (j + 1)) := by
        have : k - j = (k - (j + 1)) + 1 := by omega
        rw [this, pow_succ]
        ring
      have hdvd : 2 ∣ ((hashLevel h)^[j] leaves).length := by
        rw [ihlen, hsplit]
        exact Dvd.intro _ rfl
      constructor
      · rw [Function.iterate_succ_apply', hashLevel_length h _ hdvd, ihlen, hsplit]
        omega
      · intro m hm
        have hb : 2 * m + 1 < ((hashLevel h)^[j] leaves).length := by
          rw [ihlen, hsplit]
          omega
        rw [Function.iterate_succ_apply', hashLevel_getD h _ m hb,
          ihget (2 * m) (by rw [hsplit] at *; omega),
          ihget (2 * m + 1) (by rw [hsplit] at *; omega)]
        rw [compute_node_succ h leaves k m j (by omega)]

/-- For a perfect tree the recomputed root is the top node of the
zero-padded node computation. -/
theorem root_perfect (h : Fr → Fr → Fr) (k : Nat) (leaves : List Fr)
    (hlen : leaves.length = 2 ^ k) :
    (treeOfLeaves h leaves).root =
      compute_node_at_level_scalar h leaves k 0 k := by
  have hne : leaves ≠ [] := by
    intro hc
    rw [hc] at hlen
    simp at hlen
    exact absurd hlen.symm (pow_ne_zero k two_ne_zero)
  show recomputeRoot h leaves = _
  unfold recomputeRoot
  rw [if_neg hne, hlen, compute_tree_depth_two_pow]
  obtain ⟨-, hget⟩ := iterate_hashLevel h k leaves hlen k le_rfl
  exact hget 0 (by simp)

theorem treeOfLeaves_depth_perfect (h : Fr → Fr → Fr) (k : Nat)
    (leaves : List Fr) (hlen : leaves.length = 2 ^ k) :
    (treeOfLeaves h leaves).depth = k := by
  show compute_tree_depth leaves.length = k
  rw [hlen, compute_tree_depth_two_pow]

theorem genSiblings_length (h : Fr → Fr → Fr) (leaves : List Fr) (depth : Nat) :
    ∀ rem cur level, (genSiblings h leaves depth cur level rem).length = rem := by
  intro rem
  induction rem with
  | zero => intro cur level; rfl
  | succ rem ih => intro cur level; simp [genSiblings, ih]

/-- Folding up the sibling list produced by the proof loop turns the node at
`(cur, level)` into the node at the top of the path. This holds for every
leaf list, perfect or not. -/
theorem foldPath_genSiblings (h : Fr → Fr → Fr) (leaves : List Fr) (depth : Nat) :
    ∀ (rem level cur : Nat), level + rem = depth →
      foldPath h (compute_node_at_level_scalar h leaves depth cur level) cur
        (genSiblings h leaves depth cur level rem)
      = compute_node_at_level_scalar h leaves depth (cur / 2 ^ rem) (level + rem) := by
  intro rem
  induction rem with
  | zero =>
      intro level cur _
      simp [genSiblings, foldPath]
  | succ rem ih =>
      intro level cur hlev
      have hle : level + 1 ≤ depth := by omega
      rw [genSiblings, foldPath, siblingAt_eq]
      have hacc : (if cur % 2 = 0 then
          h (compute_node_at_level_scalar h leaves depth cur level)
            (compute_node_at_level_scalar h leaves depth (sibIndex cur) level)
        else h (compute_node_at_level_scalar h leaves depth (sibIndex cur) level)
            (compute_node_at_level_scalar h leaves depth cur level)) =
          compute_node_at_level_scalar h leaves depth (cur / 2) (level + 1) := by
        rw [compute_node_succ h leaves depth (cur / 2) level hle]
        by_cases hpar : cur % 2 = 0
        · have e1 : 2 * (cur / 2) = cur := by omega
          have e2 : 2 * (cur / 2) + 1 = sibIndex cur := by
            simp only [sibIndex, if_pos hpar]
            omega
          rw [if_pos hpar, e2, e1]
        · have e1 : 2 * (cur / 2) = sibIndex cur := by
            simp only [sibIndex, if_neg hpar]
            omega
          have e2 : 2 * (cur / 2) + 1 = cur := by omega
          rw [if_neg hpar, e2, e1]
      rw [hacc, ih (level + 1) (cur / 2) (by omega)]
      have e3 : cur / 2 / 2 ^ rem = cur / 2 ^ (rem + 1) := by
        rw [Nat.div_div_eq_div_mul, ← pow_succ']
      have e4 : level + 1 + rem = level + (rem + 1) := by omega
      rw [e3, e4]

/-! ## Tree claims (C2, C6, C7, C8) -/

/-- C2. The claim: a tree holding `2^D` leaves rejects a further insert with
TreeFull, and with D = 2 the fifth deposit returns TreeFull. In the source
`LeanIMT::insert` has no capacity check and `deposit` always succeeds: after
four deposits (depth 2, the capacity the spec assumes) the fifth deposit
returns leaf index 4 and the tree grows to five leaves. -/
theorem C2_counterexample :
    (deposit testHash (execOps testHash (List.replicate 4 (PoolOp.deposit 0)) initialPool) 0).1 = 4 ∧
    (deposit testHash (execOps testHash (List.replicate 4 (PoolOp.deposit 0)) initialPool) 0).2.tree.leaves.length = 5 ∧
    (execOps testHash (List.replicate 4 (PoolOp.deposit 0)) initialPool).tree.leaves.length = 4 ∧
    (execOps testHash (List.replicate 4 (PoolOp.deposit 0)) initialPool).tree.depth = 2 := by
  decide

/-- C2 amended: insert and deposit never fail; there is no capacity bound.
Every deposit appends its commitment, returns the previous leaf count as the
new leaf index, credits the fixed amount, and recomputes the depth as the
halving-count of the new leaf count. -/
theorem C2_amended (h : Fr → Fr → Fr) (st : PoolState) (c : Fr) :
    (deposit h st c).1 = st.tree.leaves.length ∧
    (deposit h st c).2.tree.leaves = st.tree.leaves ++ [c] ∧
    (deposit h st c).2.balance = st.balance + FIXED_AMOUNT ∧
    (deposit h st c).2.tree.depth = compute_tree_depth (st.tree.leaves.length + 1) := by
  unfold deposit LeanIMT.insert treeOfLeaves
  refine ⟨?_, rfl, rfl, ?_⟩ <;> simp

/-- C6. The claim: the recomputed tree satisfies the zero-padding invariant,
i.e. its root is the top value of the "node = hash of its two (zero-padded)
children" recursion, with no shortcut for single-child nodes. In the source
`recompute_tree` pushes an unpaired node to the next level unchanged, so a
three-leaf tree violates the invariant (the test hash makes the two values
concrete and different). -/
theorem C6_counterexample :
    ¬ ((((LeanIMT.new.insert testHash 0).insert testHash 0).insert testHash 0).root =
      compute_node_at_level_scalar testHash
        (((LeanIMT.new.insert testHash 0).insert testHash 0).insert testHash 0).leaves
        (((LeanIMT.new.insert testHash 0).insert testHash 0).insert testHash 0).depth
        0
        (((LeanIMT.new.insert testHash 0).insert testHash 0).insert testHash 0).depth) := by
  decide

/-- C6 amended: the zero-padding invariant holds for the empty tree (root 0,
the zero-subtree value at its depth 0) and for every tree whose leaf count
is a power of two; for other leaf counts `recompute_tree` propagates the
unpaired node upward without hashing, and the invariant can fail. -/
theorem C6_amended :
    (∀ h : Fr → Fr → Fr,
      (treeOfLeaves h ([] : List Fr)).root =
        zeroSubtree h (treeOfLeaves h ([] : List Fr)).depth) ∧
    (∀ (h : Fr → Fr → Fr) (k : Nat) (leaves : List Fr),
      leaves.length = 2 ^ k →
      (treeOfLeaves h leaves).root =
        compute_node_at_level_scalar h leaves (treeOfLeaves h leaves).depth
          0 (treeOfLeaves h leaves).depth) := by
  constructor
  · intro h
    simp [treeOfLeaves, recomputeRoot, compute_tree_depth, zeroSubtree]
  · intro h k leaves hlen
    rw [treeOfLeaves_depth_perfect h k leaves hlen]
    exact root_perfect h k leaves hlen

theorem C6_amended_witness :
    ([0, 0, 0, 0] : List Fr).length = 2 ^ 2 ∧
    (treeOfLeaves testHash [0, 0, 0, 0]).root =
      compute_node_at_level_scalar testHash [0, 0, 0, 0]
        (treeOfLeaves testHash [0, 0, 0, 0]).depth
        0 (treeOfLeaves testHash [0, 0, 0, 0]).depth :=
  ⟨by decide, C6_amended.2 testHash 2 [0, 0, 0, 0] (by decide)⟩

/-- C7. The claim: for every tree state and every leaf index `i < n`,
folding the pair hash up the authentication path returned by
`generate_proof` reproduces the stored root. For the three-leaf tree the
sibling list is computed with zero padding while the root was computed by
propagating the unpaired leaf, and the fold does not reach the root. -/
theorem C7_counterexample :
    foldPath testHash ((treeOfLeaves testHash [0, 0, 0]).leaves.getD 0 0) 0
      ((proofSiblings testHash (treeOfLeaves testHash [0, 0, 0]) 0).take
        (treeOfLeaves testHash [0, 0, 0]).depth)
      ≠ (treeOfLeaves testHash [0, 0, 0]).root := by
  decide

/-- C7 amended: path soundness holds whenever the leaf count is a power of
two (in particular for the full capacity-4 tree of the deployed depth-2
pool): folding the hash up the sibling list of `generate_proof`, with the
side at each level chosen by the bits of `i`, yields exactly the stored
root. -/
theorem C7_amended (h : Fr → Fr → Fr) (k : Nat) (leaves : List Fr) (i : Nat)
    (hlen : leaves.length = 2 ^ k) (hi : i < leaves.length) :
    foldPath h (leaves.getD i 0) i
      ((proofSiblings h (treeOfLeaves h leaves) i).take (treeOfLeaves h leaves).depth)
      = (treeOfLeaves h leaves).root := by
  have hdep : (treeOfLeaves h leaves).depth = k := treeOfLeaves_depth_perfect h k leaves hlen
  have hleaves : (treeOfLeaves h leaves).leaves = leaves := rfl
  by_cases hsp : (treeOfLeaves h leaves).depth = 1 ∧ (treeOfLeaves h leaves).leaves.length = 2
  · have hd1 := hsp.1
    have hl2' := hsp.2
    have hk1 : k = 1 := by omega
    rw [hleaves] at hl2'
    obtain ⟨a, b, rfl⟩ := List.length_eq_two.mp hl2'
    subst hk1
    have hroot : (treeOfLeaves h [a, b]).root =
        compute_node_at_level_scalar h [a, b] 1 0 1 :=
      root_perfect h 1 [a, b] hlen
    have hroot' : (treeOfLeaves h [a, b]).root = h a b := by
      rw [hroot, compute_node_succ h [a, b] 1 0 0 le_rfl]
      simp [compute_node_at_level_scalar]
    have hps : proofSiblings h (treeOfLeaves h [a, b]) i =
        (if i = 0 then [(treeOfLeaves h [a, b]).leaves.getD 1 0]
          else [(treeOfLeaves h [a, b]).leaves.getD 0 0]) ++
          [(treeOfLeaves h [a, b]).root] := by
      unfold proofSiblings generate_proof
      rw [if_neg (not_le.mpr hi : ¬ i ≥ (treeOfLeaves h [a, b]).leaves.length)]
      rw [if_pos hsp]
      rw [if_pos (by omega : 0 < (treeOfLeaves h [a, b]).depth)]
      simp only [Option.map_some', Option.getD_some]
    have hi2 : i < 2 := by omega
    rw [hps, hd1]
    interval_cases i
    · simp [hleaves, foldPath, hroot']
    · simp [hleaves, foldPath, hroot']
  · have hps : proofSiblings h (treeOfLeaves h leaves) i =
        genSiblings h leaves k i 0 k ++
          (if 0 < k then [(treeOfLeaves h leaves).root] else []) := by
      unfold proofSiblings generate_proof
      rw [if_neg (not_le.mpr hi : ¬ i ≥ (treeOfLeaves h leaves).leaves.length)]
      rw [if_neg hsp]
      simp only [Option.map_some', Option.getD_some]
      rw [hleaves, hdep]
    have hlen_gs : (genSiblings h leaves k i 0 k).length = k :=
      genSiblings_length h leaves k k i 0
    have htake : (genSiblings h leaves k i 0 k ++
        (if 0 < k then [(treeOfLeaves h leaves).root] else [])).take k =
          genSiblings h leaves k i 0 k := by
      nth_rewrite 1 [← hlen_gs]
      exact List.take_left _ _
    have hacc : leaves.getD i 0 = compute_node_at_level_scalar h leaves k i 0 := by
      rw [compute_node_at_level_scalar, if_pos hi]
    rw [hps, hdep, htake, hacc,
      foldPath_genSiblings h leaves k k 0 i (by omega)]
    have hzero : i / 2 ^ k = 0 := Nat.div_eq_of_lt (by omega)
    rw [hzero, Nat.zero_add, root_perfect h k leaves hlen]

theorem C7_amended_witness :
    ([0, 0, 0, 0] : List Fr).length = 2 ^ 2 ∧ 0 < ([0, 0, 0, 0] : List Fr).length ∧
    foldPath testHash (([0, 0, 0, 0] : List Fr).getD 0 0) 0
      ((proofSiblings testHash (treeOfLeaves testHash [0, 0, 0, 0]) 0).take
        (treeOfLeaves testHash [0, 0, 0, 0]).depth)
      = (treeOfLeaves testHash [0, 0, 0, 0]).root :=
  ⟨by decide, by decide, C7_amended testHash 2 [0, 0, 0, 0] 0 (by decide) (by decide)⟩

/-- C8. The claim: `generate_proof` returns exactly `D` siblings with the
root not appended. In the source the root IS appended whenever the depth is
positive: for the two-leaf tree (depth 1) the sibling list has length 2. -/
theorem C8_counterexample :
    ((generate_proof testHash (treeOfLeaves testHash [0, 1]) 0).map
      (fun p => p.1.length)) = some 2 ∧
    (treeOfLeaves testHash [0, 1]).depth = 1 := by
  decide

/-- C8 amended: `generate_proof` fails (returns `None`) exactly when the
index is at or beyond the current leaf count, and otherwise returns the
tree depth together with a sibling list of length depth + 1 for positive
depth (the root is appended) and length 0 for depth 0. -/
theorem C8_amended (h : Fr → Fr → Fr) (leaves : List Fr) (i : Nat) :
    (generate_proof h (treeOfLeaves h leaves) i = none ↔ leaves.length ≤ i) ∧
    (∀ sibs d, generate_proof h (treeOfLeaves h leaves) i = some (sibs, d) →
      d = (treeOfLeaves h leaves).depth ∧
      sibs.length =
        (if (treeOfLeaves h leaves).depth = 0 then 0
          else (treeOfLeaves h leaves).depth + 1)) := by
  have hleaves : (treeOfLeaves h leaves).leaves = leaves := rfl
  unfold generate_proof
  rw [hleaves]
  by_cases hge : i ≥ leaves.length
  · rw [if_pos hge]
    constructor
    · constructor
      · intro _
        exact hge
      · intro _
        rfl
    · intro sibs d hc
      cases hc
  · rw [if_neg hge]
    constructor
    · constructor
      · intro hc
        cases hc
      · intro hc
        exact absurd hc hge
    · intro sibs d hsome
      rw [Option.some_inj] at hsome
      injection hsome with hsibs hd
      subst hsibs
      subst hd
      refine ⟨rfl, ?_⟩
      by_cases hsp : (treeOfLeaves h leaves).depth = 1 ∧ leaves.length = 2
      · rw [if_pos hsp]
        obtain ⟨hd1, -⟩ := hsp
        by_cases hi0 : i = 0 <;> simp [hi0, hd1]
      · rw [if_neg hsp]
        rcases Nat.eq_zero_or_pos (treeOfLeaves h leaves).depth with h0 | hpos
        · rw [h0]
          simp [genSiblings_length, genSiblings]
        · rw [if_pos hpos, List.length_append,
            genSiblings_length h leaves (treeOfLeaves h leaves).depth]
          rw [if_neg (by omega)]
          simp

theorem C8_amended_witness :
    (1 : Nat) = (treeOfLeaves testHash [0, 1]).depth ∧
      ([1, 3] : List Fr).length =
        (if (treeOfLeaves testHash [0, 1]).depth = 0 then 0
          else (treeOfLeaves testHash [0, 1]).depth + 1) :=
  (C8_amended testHash [0, 1] 0).2 [1, 3] 1 (by decide)

/-! ## Pool claims (C1, C3, C4, C5) -/

/-! Lemmas about the nullifier set: it only ever grows, a successful
withdraw records its nullifier, and a recorded nullifier blocks success. -/

theorem withdraw_success_mem (v : Bool) (ps : PubSignals) (st : PoolState)
    (hsucc : (withdraw v ps st).1 = WithdrawResult.success) :
    ps.nullifierHash ∈ (withdraw v ps st).2.nullifiers := by
  unfold withdraw at hsucc ⊢
  split_ifs at hsucc ⊢ <;> first
    | exact List.mem_append_right _ (List.mem_singleton_self _)
    | cases hsucc

theorem mem_no_success (v : Bool) (ps : PubSignals) (st : PoolState)
    (hmem : ps.nullifierHash ∈ st.nullifiers) :
    (withdraw v ps st).1 ≠ WithdrawResult.success := by
  unfold withdraw
  split_ifs with h1 h2 h3 h4 <;> first
    | (intro hc; cases hc)
    | exact absurd hmem h3

theorem nullifiers_mono_op (h : Fr → Fr → Fr) (st : PoolState) (op : PoolOp)
    (x : Fr) (hx : x ∈ st.nullifiers) : x ∈ (execOp h st op).nullifiers := by
  cases op with
  | deposit c => exact hx
  | withdraw v ps =>
      show x ∈ (withdraw v ps st).2.nullifiers
      unfold withdraw
      split_ifs <;> first
        | exact hx
        | exact List.mem_append_left _ hx

theorem nullifiers_mono_ops (h : Fr → Fr → Fr) (ops : List PoolOp) :
    ∀ (st : PoolState) (x : Fr), x ∈ st.nullifiers →
      x ∈ (execOps h ops st).nullifiers := by
  induction ops with
  | nil => intro st x hx; exact hx
  | cons op ops ih =>
      intro st x hx
      exact ih (execOp h st op) x (nullifiers_mono_op h st op x hx)

/-- C1. The claim: withdraw returns OK only if the decoded
`publicSignals[1]` (withdrawnValue) equals the pool denomination, rejecting
other values with DenominationMismatch. In the source `_withdrawn_value` is
read and ignored: with sufficient balance, a matching root, a fresh
nullifier and an accepted proof, withdraw succeeds even though the
withdrawn value 5 differs from the denomination. -/
theorem C1_counterexample :
    (withdraw true ⟨7, 5, 0⟩
      { tree := LeanIMT.new, nullifiers := [], balance := 1000000000 }).1 =
      WithdrawResult.success ∧
    (5 : Fr) ≠ ((1000000000 : Nat) : Fr) := by
  decide

/-- C1 amended: withdraw performs no denomination check at all; whenever
the balance, state-root and nullifier checks pass and the verifier accepts,
it returns the success result, whatever `withdrawnValue` holds. There is no
DenominationMismatch discriminant. -/
theorem C1_amended (st : PoolState) (ps : PubSignals)
    (hbal : FIXED_AMOUNT ≤ st.balance)
    (hroot : ps.stateRoot = st.tree.root)
    (hnf : ps.nullifierHash ∉ st.nullifiers) :
    (withdraw true ps st).1 = WithdrawResult.success := by
  unfold withdraw
  rw [if_neg (not_lt.mpr hbal), if_neg (not_ne_iff.mpr hroot), if_neg hnf,
    if_neg (by simp)]

theorem C1_amended_witness :
    (withdraw true ⟨7, 123, 0⟩
      { tree := LeanIMT.new, nullifiers := [], balance := 1000000000 }).1 =
      WithdrawResult.success :=
  C1_amended _ ⟨7, 123, 0⟩ (by decide) (by decide) (by decide)

/-- C3. The claim: a state-root mismatch fails with a discriminant distinct
from the one produced by a Groth16 verification failure. In the source both
paths return the same string constant `ERROR_COIN_OWNERSHIP_PROOF`: a call
failing the root check and a call failing only proof verification produce
equal results. -/
theorem C3_counterexample :
    (withdraw true ⟨7, 1000000000, 1⟩
      { tree := LeanIMT.new, nullifiers := [], balance := 1000000000 }).1 =
    (withdraw false ⟨7, 1000000000, 0⟩
      { tree := LeanIMT.new, nullifiers := [], balance := 1000000000 }).1 := by
  decide

/-- C3 amended: with sufficient balance, a state-root mismatch makes
withdraw return the coin-ownership-proof error (the same value returned on
proof verification failure, not a distinct one) and leaves the state
untouched. -/
theorem C3_amended (v : Bool) (ps : PubSignals) (st : PoolState)
    (hbal : FIXED_AMOUNT ≤ st.balance)
    (hroot : ps.stateRoot ≠ st.tree.root) :
    withdraw v ps st = (WithdrawResult.coinOwnershipProof, st) := by
  unfold withdraw
  rw [if_neg (not_lt.mpr hbal), if_pos hroot]

theorem C3_amended_witness :
    withdraw true ⟨7, 1000000000, 1⟩
      { tree := LeanIMT.new, nullifiers := [], balance := 1000000000 } =
      (WithdrawResult.coinOwnershipProof,
        { tree := LeanIMT.new, nullifiers := [], balance := 1000000000 }) :=
  C3_amended true ⟨7, 1000000000, 1⟩ _ (by decide) (by decide)

/-- C4. Every failing withdraw (insufficient balance, state-root mismatch,
used nullifier, or failed proof verification) leaves the nullifier set, the
balance and the tree root exactly as they were: all mutations sit after the
last check in the source. -/
theorem C4_atomicity (v : Bool) (ps : PubSignals) (st : PoolState)
    (hfail : (withdraw v ps st).1 ≠ WithdrawResult.success) :
    (withdraw v ps st).2.nullifiers = st.nullifiers ∧
    (withdraw v ps st).2.balance = st.balance ∧
    (withdraw v ps st).2.tree.root = st.tree.root := by
  unfold withdraw at hfail ⊢
  split_ifs at hfail ⊢ <;> first
    | exact ⟨rfl, rfl, rfl⟩
    | exact absurd rfl hfail

theorem C4_atomicity_witness :
    (withdraw false ⟨7, 1000000000, 0⟩
      { tree := LeanIMT.new, nullifiers := [], balance := 1000000000 }).2.nullifiers = [] ∧
    (withdraw false ⟨7, 1000000000, 0⟩
      { tree := LeanIMT.new, nullifiers := [], balance := 1000000000 }).2.balance = 1000000000 ∧
    (withdraw false ⟨7, 1000000000, 0⟩
      { tree := LeanIMT.new, nullifiers := [], balance := 1000000000 }).2.tree.root = LeanIMT.new.root :=
  C4_atomicity false ⟨7, 1000000000, 0⟩
    { tree := LeanIMT.new, nullifiers := [], balance := 1000000000 } (by decide)

/-- C5. The claim: two withdraws with the same `nfImage` succeed at most
once, AND every later same-nullifier withdraw fails specifically with the
nullifier-used result. The second part is false: the balance check runs
first, so after a success that drains the balance the repeat withdraw fails
with the insufficient-balance result instead. -/
theorem C5_counterexample :
    (withdraw true ⟨7, 1000000000, 0⟩
      { tree := LeanIMT.new, nullifiers := [], balance := 1000000000 }).1 =
      WithdrawResult.success ∧
    (withdraw true ⟨7, 1000000000, 0⟩
      ((withdraw true ⟨7, 1000000000, 0⟩
        { tree := LeanIMT.new, nullifiers := [], balance := 1000000000 }).2)).1 ≠
      WithdrawResult.nullifierUsed := by
  decide

/-- C5 amended: once a withdraw succeeds its nullifier is recorded, the
record survives any further deposits and withdraws, and no later withdraw
carrying the same `nfImage` ever returns the success result (it fails with
NullifierUsed when it reaches the nullifier check, but may fail earlier on
balance or state root). -/
theorem C5_amended (h : Fr → Fr → Fr) (st : PoolState) (v v' : Bool)
    (ps ps' : PubSignals) (ops : List PoolOp)
    (hnf : ps'.nullifierHash = ps.nullifierHash)
    (hsucc : (withdraw v ps st).1 = WithdrawResult.success) :
    (withdraw v' ps' (execOps h ops (withdraw v ps st).2)).1 ≠
      WithdrawResult.success := by
  apply mem_no_success
  rw [hnf]
  exact nullifiers_mono_ops h ops (withdraw v ps st).2 ps.nullifierHash
    (withdraw_success_mem v ps st hsucc)

theorem C5_amended_witness :
    (withdraw true ⟨7, 1000000000, 0⟩
      (execOps testHash []
        (withdraw true ⟨7, 1000000000, 0⟩
          { tree := LeanIMT.new, nullifiers := [], balance := 1000000000 }).2)).1 ≠
      WithdrawResult.success :=
  C5_amended testHash
    { tree := LeanIMT.new, nullifiers := [], balance := 1000000000 }
    true true ⟨7, 1000000000, 0⟩ ⟨7, 1000000000, 0⟩ [] rfl (by decide)
